import Mathlib

/-!
Verification of the markup content extraction engine of the keylol-tg
repository (`src/clients/forum_client.py`, `src/models/post.py`).

The Python code is shallowly embedded: the lxml element tree becomes the
inductive `MNode`, the recursive `parse_element` closure of
`ForumClient._parse_message_content` becomes the mutual functions
`parseElement` / `parseChildren` / `parseChild` over an explicit
`WalkState` (the accumulated fragment list plus the
`skip_next_steam_span` flag), and the regex-based cleanup becomes the
scanner functions `collapseBlank` / `collapseSpaces` / `pyStripL`.
-/

namespace KeylolTg

/-- The whitespace class used by Python's `str.strip` and the regex
class of the cleanup patterns, restricted to ASCII. -/
def isPySpace (c : Char) : Bool :=
  c = ' ' || c = '\t' || c = '\n' || c = '\r' || c = '\x0b' || c = '\x0c'

/-- `p` occurs at the start of `s` (Python `str.startswith`, on char lists). -/
def listHasPre (p s : List Char) : Bool :=
  match p, s with
  | [], _ => true
  | _ :: _, [] => false
  | a :: p', b :: s' => a = b && listHasPre p' s'

/-- `needle` occurs somewhere in `s` (Python's `in` operator on strings,
on char lists). -/
def containsSub (needle s : List Char) : Bool :=
  match s with
  | [] => needle.isEmpty
  | _ :: t => listHasPre needle s || containsSub needle t

/-- Python `needle in hay` for strings. -/
def strContains (hay needle : String) : Bool :=
  containsSub needle.data hay.data

/-- Python `s.startswith(p)` for strings. -/
def pyStartsWith (s p : String) : Bool :=
  listHasPre p.data s.data

/-- Python `s.lower()` (ASCII case folding). -/
def pyLower (s : String) : String :=
  ⟨s.data.map Char.toLower⟩

/-- Python `s.strip()` on a char list: drop whitespace at both ends. -/
def pyStripL (l : List Char) : List Char :=
  ((l.dropWhile isPySpace).reverse.dropWhile isPySpace).reverse

/-- Python `s.strip()` for strings. -/
def pyStrip (s : String) : String :=
  ⟨pyStripL s.data⟩

/-- One element of the parsed markup tree, as handed over by lxml:
tag name, attribute map, leading text (`.text`, `""` for absent),
trailing text that follows the element (`.tail`), and the child
elements in document order. -/
inductive MNode where
  | mk (tag : String) (attrs : List (String × String)) (text : String)
       (tail : String) (children : List MNode)

def MNode.tag : MNode → String
  | .mk t _ _ _ _ => t

def MNode.attrs : MNode → List (String × String)
  | .mk _ a _ _ _ => a

def MNode.text : MNode → String
  | .mk _ _ x _ _ => x

def MNode.tail : MNode → String
  | .mk _ _ _ x _ => x

def MNode.children : MNode → List MNode
  | .mk _ _ _ _ c => c

/-- lxml `element.get(key, '')`: first binding of the attribute,
empty string when absent. -/
def getAttr (n : MNode) (k : String) : String :=
  match n.attrs.find? (fun p => p.1 = k) with
  | some p => p.2
  | none => ""

mutual

/-- The text nodes of the subtree of one element in document order, as
returned by lxml's `element.xpath('.//text()')`: the element's leading
text, then below each child recursively, each child's subtree texts
followed by that child's tail. -/
def nodeTexts : MNode → List String
  | .mk _ _ tx _ ch => tx :: textsWithTails ch

/-- The text nodes below a list of sibling elements in document order. -/
def textsWithTails : List MNode → List String
  | [] => []
  | c :: rest => (nodeTexts c ++ [c.tail]) ++ textsWithTails rest

end

/-- `ForumClient._extract_text_content`: join the stripped non-empty
text nodes of the subtree with single spaces. -/
def extractTextContent (n : MNode) : String :=
  String.intercalate " " (((nodeTexts n).map pyStrip).filter (fun s => s ≠ ""))

mutual

/-- `n` or a descendant of `n` is an `a` element whose `href` contains
`"steam"`. -/
def hasSteamANode : MNode → Bool
  | n@(.mk _ _ _ _ ch) =>
    (n.tag = "a" && strContains (getAttr n "href") "steam") || hasSteamAList ch

/-- The xpath query `.//a[contains(@href, "steam") or contains(@href, "steamdb")]`
of the span-suppression check is non-empty: some element of the forest
is an `a` with an `href` containing `"steam"` (`"steamdb"` is subsumed). -/
def hasSteamAList : List MNode → Bool
  | [] => false
  | c :: rest => hasSteamANode c || hasSteamAList rest

end

/-- The fixed denylist of presentational classes skipped by the span and
div branches. -/
def denyClasses : List String :=
  ["swi-block", "steam-info-wrapper", "tip", "steam-info-loading",
   "original_text_style1"]

/-- `any(skip_class in class_attr for skip_class in [...])`: substring
test of each denylist entry against the raw class attribute. -/
def denylisted (cls : String) : Bool :=
  denyClasses.any (fun k => strContains cls k)

/-- The caption style heuristic of the span-suppression check:
`'font-size: 10px' in style_attr or 'overflow: visible' in style_attr`. -/
def styleHeur (style : String) : Bool :=
  strContains style "font-size: 10px" || strContains style "overflow: visible"

/-- The storefront-platform mention test of the span-suppression check:
a descendant steam link, or `steam` in the lower-cased flattened text. -/
def steamMention (n : MNode) : Bool :=
  hasSteamAList n.children || strContains (pyLower (extractTextContent n)) "steam"

/-- Python `s.split('\n')`. -/
def splitNl : List Char → List (List Char)
  | [] => [[]]
  | '\n' :: rest => [] :: splitNl rest
  | c :: rest =>
    match splitNl rest with
    | p :: ps => (c :: p) :: ps
    | [] => [[c]]

/-- Python `s.split('t=')` (left-to-right, non-overlapping). -/
def splitTEq : List Char → List (List Char)
  | 't' :: '=' :: rest => [] :: splitTEq rest
  | c :: rest =>
    match splitTEq rest with
    | p :: ps => (c :: p) :: ps
    | [] => [[c]]
  | [] => [[]]

/-- Python `s.replace('widget', 'app')` (left-to-right, non-overlapping). -/
def replaceWidgetApp : List Char → List Char
  | 'w' :: 'i' :: 'd' :: 'g' :: 'e' :: 't' :: rest =>
    'a' :: 'p' :: 'p' :: replaceWidgetApp rest
  | c :: rest => c :: replaceWidgetApp rest
  | [] => []

/-- `src.split('?')[0]`: everything before the first question mark. -/
def beforeQm (s : String) : String :=
  ⟨s.data.takeWhile (fun c => c ≠ '?')⟩

/-- `src.split('t=')[-1].split('&')[0]`: the countdown branch's parse of
the `t` query parameter. -/
def tParam (src : String) : String :=
  ⟨((splitTEq src.data).getLastD []).takeWhile (fun c => c ≠ '&')⟩

/-- Python `t.isdigit()` (ASCII digits): non-empty and all digits. -/
def pyIsDigit (s : String) : Bool :=
  !s.data.isEmpty && s.data.all (fun c => c.isDigit)

/-- Python `int(t)` for a digit string. -/
def digitsToNat (l : List Char) : Nat :=
  l.foldl (fun a c => a * 10 + (c.toNat - '0'.toNat)) 0

/-- Left-pad the decimal representation of `n` with zeros to width 2. -/
def pad2 (n : Nat) : String :=
  if n < 10 then "0" ++ toString n else toString n

/-- Left-pad the decimal representation of `n` with zeros to width 4. -/
def pad4 (n : Nat) : String :=
  if n < 10 then "000" ++ toString n
  else if n < 100 then "00" ++ toString n
  else if n < 1000 then "0" ++ toString n
  else toString n

/-- Gregorian date of the day number counted from 1970-01-01
(the standard civil-from-days algorithm, valid for `z ≥ 0`). -/
def civilFromDays (z0 : Nat) : Nat × Nat × Nat :=
  let z := z0 + 719468
  let era := z / 146097
  let doe := z % 146097
  let yoe := (doe - doe / 1460 + doe / 36524 - doe / 146096) / 365
  let y := era * 400 + yoe
  let doy := doe - (365 * yoe + yoe / 4 - yoe / 100)
  let mp := (5 * doy + 2) / 153
  let d := doy - (153 * mp + 2) / 5 + 1
  let m := if mp < 10 then mp + 3 else mp - 9
  (if m ≤ 2 then y + 1 else y, m, d)

/-- `datetime.fromtimestamp(t).strftime('%Y-%m-%d %H:%M:%S')` for a
non-negative Unix timestamp.  `fromtimestamp` uses the process-local
time zone; the zone is fixed to UTC here. -/
def formatLocalTime (t : Nat) : String :=
  let days := t / 86400
  let secs := t % 86400
  let ymd := civilFromDays days
  pad4 ymd.1 ++ "-" ++ pad2 ymd.2.1 ++ "-" ++ pad2 ymd.2.2 ++ " " ++
    pad2 (secs / 3600) ++ ":" ++ pad2 (secs % 3600 / 60) ++ ":" ++ pad2 (secs % 60)

/-- The relative-reference resolution of the img branch and of
`_extract_images_from_content`: `/`-relative paths get the base
prefixed, anything else not starting with `http` gets `base + "/"`. -/
def resolveUrl (base src : String) : String :=
  if pyStartsWith src "/" then base ++ src
  else if !pyStartsWith src "http" then base ++ "/" ++ src
  else src

mutual

/-- The image-URL contribution of one element and its descendants:
when the element is an `img` whose `src` is present and not a data URI,
the resolved `src`, followed by the contributions of the children. -/
def imgNode (base : String) : MNode → List String
  | c@(.mk _ _ _ _ ch) =>
    (if c.tag = "img" then
       let src := getAttr c "src"
       if src ≠ "" && !pyStartsWith src "data:" then [resolveUrl base src] else []
     else [])
      ++ imgDescList base ch

/-- `ForumClient._extract_images_from_content` over a forest (xpath
`.//img` in document order): collect each `img` element's `src` when
present and not a data URI, resolved against the base URL. -/
def imgDescList (base : String) : List MNode → List String
  | [] => []
  | c :: rest => imgNode base c ++ imgDescList base rest

end

/-- The image list of `load_post_details`: `.//img` runs over the strict
descendants of the message element. -/
def extractImages (base : String) (root : MNode) : List String :=
  imgDescList base root.children

/-- The state threaded through the recursive walk of
`_parse_message_content`: the accumulated `content_parts` and the
`skip_next_steam_span` flag. -/
structure WalkState where
  parts : List String
  flag : Bool
deriving DecidableEq, Repr

/-- `content_parts.append(s)`. -/
def emit (s : String) (st : WalkState) : WalkState :=
  { st with parts := st.parts ++ [s] }

/-- Strip `s` and append it when non-empty (the handling of leading and
tail text). -/
def emitTrimmed (s : String) (st : WalkState) : WalkState :=
  let t := pyStrip s
  if t = "" then st else emit t st

mutual

/-- The recursive `parse_element` closure of
`ForumClient._parse_message_content`: emit the node's stripped leading
text, then process each child. -/
def parseElement (base : String) : MNode → WalkState → WalkState
  | .mk _ _ tx _ ch, st => parseChildren base ch (emitTrimmed tx st)

/-- The `for child in element` loop of `parse_element`: the tag
dispatch, followed by the tail-text handling — which the branches that
`continue` (javascript links, suppressed spans, denylisted spans and
divs, script-like tags) skip.  `parseChild` below restates the loop
body for a single child. -/
def parseChildren (base : String) : List MNode → WalkState → WalkState
  | [], st => st
  | child :: rest, st =>
    parseChildren base rest
      (let tag := pyLower child.tag
       if tag = "img" then
         let src := getAttr child "file"
         let st1 :=
           if src ≠ "" && !pyStartsWith src "data:" then
             emit ("[图片: " ++ resolveUrl base src ++ "]") st
           else st
         emitTrimmed child.tail st1
       else if tag = "a" then
         let href := getAttr child "href"
         let linkText := child.text
         if strContains (pyLower href) "steam" then
           emitTrimmed child.tail
             (emit ("[Steam链接: " ++ (if linkText ≠ "" then linkText else href) ++ "]") st)
         else if pyStartsWith href "#" then
           emitTrimmed child.tail (if linkText ≠ "" then emit linkText st else st)
         else if href ≠ "" && linkText ≠ "" then
           if strContains href "javascript:" then st
           else
             emitTrimmed child.tail
               (emit ("[链接: " ++ linkText ++ " - "
                       ++ (if pyStartsWith href "/" then base ++ href else href) ++ "]") st)
         else if linkText ≠ "" then emitTrimmed child.tail (emit linkText st)
         else emitTrimmed child.tail st
       else if tag = "iframe" then
         let src := getAttr child "src"
         if strContains (pyLower src) "steam" then
           let src2 := if strContains src "widget" then (⟨replaceWidgetApp src.data⟩ : String) else src
           let st1 := emit ("[Steam小部件: " ++ beforeQm src2 ++ "]") st
           emitTrimmed child.tail { st1 with flag := true }
         else if strContains (pyLower src) "countdown" then
           let t := tParam src
           let st1 :=
             if pyIsDigit t then
               emit ("[倒计时: " ++ formatLocalTime (digitsToNat t.data) ++ "]") st
             else st
           emitTrimmed child.tail st1
         else emitTrimmed child.tail (emit "[嵌入内容]" st)
       else if tag = "h1" || tag = "h2" || tag = "h3" || tag = "h4" || tag = "h5" || tag = "h6" then
         let t := extractTextContent child
         emitTrimmed child.tail (if t ≠ "" then emit ("\n**" ++ t ++ "**\n") st else st)
       else if tag = "blockquote" then
         let q := extractTextContent child
         let st1 :=
           if q ≠ "" then
             let quoted := ((splitNl q.data).filter (fun l => pyStripL l ≠ [])).map
               (fun l => "> " ++ (⟨l⟩ : String))
             emit ("\n" ++ String.intercalate "\n" quoted ++ "\n") st
           else st
         emitTrimmed child.tail st1
       else if tag = "br" then
         emitTrimmed child.tail (emit "\n" st)
       else if tag = "span" then
         let style := getAttr child "style"
         if st.flag && styleHeur style then
           if steamMention child then { st with flag := false }
           else if denylisted (getAttr child "class") then st
           else emitTrimmed child.tail (parseElement base child st)
         else if denylisted (getAttr child "class") then st
         else emitTrimmed child.tail (parseElement base child st)
       else if tag = "div" then
         if denylisted (getAttr child "class") then st
         else emitTrimmed child.tail (parseElement base child st)
       else if tag = "strong" || tag = "b" then
         let t := extractTextContent child
         emitTrimmed child.tail (if t ≠ "" then emit ("**" ++ t ++ "**") st else st)
       else if tag = "em" || tag = "i" then
         let t := extractTextContent child
         emitTrimmed child.tail (if t ≠ "" then emit ("*" ++ t ++ "*") st else st)
       else if (tag = "p" || tag = "div") && child.text ≠ "" then
         let t := extractTextContent child
         emitTrimmed child.tail (if t ≠ "" then emit ("\n" ++ t ++ "\n") st else st)
       else if strContains tag "script" || strContains tag "style" || strContains tag "noscript" then
         st
       else
         emitTrimmed child.tail (parseElement base child st))

end

/-- One iteration of the child loop of `parse_element`, as a standalone
function: exactly the loop body inlined in `parseChildren`
(`parseChildren_cons` below proves they agree). -/
def parseChild (base : String) (st : WalkState) (child : MNode) : WalkState :=
  let tag := pyLower child.tag
  if tag = "img" then
    let src := getAttr child "file"
    let st1 :=
      if src ≠ "" && !pyStartsWith src "data:" then
        emit ("[图片: " ++ resolveUrl base src ++ "]") st
      else st
    emitTrimmed child.tail st1
  else if tag = "a" then
    let href := getAttr child "href"
    let linkText := child.text
    if strContains (pyLower href) "steam" then
      emitTrimmed child.tail
        (emit ("[Steam链接: " ++ (if linkText ≠ "" then linkText else href) ++ "]") st)
    else if pyStartsWith href "#" then
      emitTrimmed child.tail (if linkText ≠ "" then emit linkText st else st)
    else if href ≠ "" && linkText ≠ "" then
      if strContains href "javascript:" then st
      else
        emitTrimmed child.tail
          (emit ("[链接: " ++ linkText ++ " - "
                  ++ (if pyStartsWith href "/" then base ++ href else href) ++ "]") st)
    else if linkText ≠ "" then emitTrimmed child.tail (emit linkText st)
    else emitTrimmed child.tail st
  else if tag = "iframe" then
    let src := getAttr child "src"
    if strContains (pyLower src) "steam" then
      let src2 := if strContains src "widget" then (⟨replaceWidgetApp src.data⟩ : String) else src
      let st1 := emit ("[Steam小部件: " ++ beforeQm src2 ++ "]") st
      emitTrimmed child.tail { st1 with flag := true }
    else if strContains (pyLower src) "countdown" then
      let t := tParam src
      let st1 :=
        if pyIsDigit t then
          emit ("[倒计时: " ++ formatLocalTime (digitsToNat t.data) ++ "]") st
        else st
      emitTrimmed child.tail st1
    else emitTrimmed child.tail (emit "[嵌入内容]" st)
  else if tag = "h1" || tag = "h2" || tag = "h3" || tag = "h4" || tag = "h5" || tag = "h6" then
    let t := extractTextContent child
    emitTrimmed child.tail (if t ≠ "" then emit ("\n**" ++ t ++ "**\n") st else st)
  else if tag = "blockquote" then
    let q := extractTextContent child
    let st1 :=
      if q ≠ "" then
        let quoted := ((splitNl q.data).filter (fun l => pyStripL l ≠ [])).map
          (fun l => "> " ++ (⟨l⟩ : String))
        emit ("\n" ++ String.intercalate "\n" quoted ++ "\n") st
      else st
    emitTrimmed child.tail st1
  else if tag = "br" then
    emitTrimmed child.tail (emit "\n" st)
  else if tag = "span" then
    let style := getAttr child "style"
    if st.flag && styleHeur style then
      if steamMention child then { st with flag := false }
      else if denylisted (getAttr child "class") then st
      else emitTrimmed child.tail (parseElement base child st)
    else if denylisted (getAttr child "class") then st
    else emitTrimmed child.tail (parseElement base child st)
  else if tag = "div" then
    if denylisted (getAttr child "class") then st
    else emitTrimmed child.tail (parseElement base child st)
  else if tag = "strong" || tag = "b" then
    let t := extractTextContent child
    emitTrimmed child.tail (if t ≠ "" then emit ("**" ++ t ++ "**") st else st)
  else if tag = "em" || tag = "i" then
    let t := extractTextContent child
    emitTrimmed child.tail (if t ≠ "" then emit ("*" ++ t ++ "*") st else st)
  else if (tag = "p" || tag = "div") && child.text ≠ "" then
    let t := extractTextContent child
    emitTrimmed child.tail (if t ≠ "" then emit ("\n" ++ t ++ "\n") st else st)
  else if strContains tag "script" || strContains tag "style" || strContains tag "noscript" then
    st
  else
    emitTrimmed child.tail (parseElement base child st)

/-- The loop of `parse_element` processes the first child by the tag
dispatch and then continues with the remaining siblings. -/
theorem parseChildren_cons (base : String) (child : MNode) (rest : List MNode)
    (st : WalkState) :
    parseChildren base (child :: rest) st =
      parseChildren base rest (parseChild base st child) := by
  simp only [parseChildren, parseChild]

/-- The suffix of `w` strictly after its last newline. -/
def afterLastNl (w : List Char) : List Char :=
  (w.reverse.takeWhile (fun c => c ≠ '\n')).reverse

theorem length_takeWhileNotNl_lt {l : List Char} (h : '\n' ∈ l) :
    (l.takeWhile (fun c => c ≠ '\n')).length < l.length := by
  induction l with
  | nil => cases h
  | cons a t ih =>
    by_cases ha : a = '\n'
    · subst ha
      rw [List.takeWhile_cons_of_neg (by simp)]
      simp
    · rw [List.takeWhile_cons_of_pos (by simp [ha])]
      have ht : '\n' ∈ t := by
        rcases List.mem_cons.mp h with h1 | h1
        · exact absurd h1.symm ha
        · exact h1
      simpa using ih ht

theorem length_afterLastNl_lt {w : List Char} (h : '\n' ∈ w) :
    (afterLastNl w).length < w.length := by
  have : '\n' ∈ w.reverse := List.mem_reverse.mpr h
  simpa [afterLastNl] using length_takeWhileNotNl_lt this

theorem lengthTakeWhileLe (p : Char → Bool) (l : List Char) :
    (l.takeWhile p).length ≤ l.length := by
  induction l with
  | nil => simp
  | cons a t ih =>
    rw [List.takeWhile_cons]
    split
    · simp only [List.length_cons]
      omega
    · simp

theorem lengthDropWhileLe (p : Char → Bool) (l : List Char) :
    (l.dropWhile p).length ≤ l.length := by
  induction l with
  | nil => simp
  | cons a t ih =>
    rw [List.dropWhile_cons]
    split
    · simp only [List.length_cons]
      omega
    · simp

/-- The cleanup regex `re.sub(r'\n\s*\n', '\n\n', s)`: scan left to
right; at a newline whose following whitespace run contains another
newline, the pattern greedily matches through the last such newline and
is replaced by a blank line. -/
def collapseBlank (s : List Char) : List Char :=
  match s with
  | [] => []
  | c :: rest =>
    if c = '\n' then
      let w := rest.takeWhile isPySpace
      if '\n' ∈ w then
        '\n' :: '\n' :: collapseBlank (afterLastNl w ++ rest.drop w.length)
      else c :: collapseBlank rest
    else c :: collapseBlank rest
termination_by s.length
decreasing_by
  all_goals simp_wf
  all_goals first
    | omega
    | (have h1 := length_afterLastNl_lt (w := List.takeWhile isPySpace t) (by assumption)
       have h2 := lengthTakeWhileLe isPySpace t
       omega)

/-- The cleanup regex `re.sub(r' +', ' ', s)`: collapse each run of
spaces to a single space. -/
def collapseSpaces : List Char → List Char
  | [] => []
  | c :: rest =>
    if c = ' ' then ' ' :: collapseSpaces (rest.dropWhile (fun x => x = ' '))
    else c :: collapseSpaces rest
termination_by s => s.length
decreasing_by
  all_goals simp_wf
  all_goals first
    | omega
    | (have h1 := lengthDropWhileLe (fun x => decide (x = ' ')) t
       omega)

/-- The cleanup pipeline of `_parse_message_content` after the join:
blank-line collapse, space collapse, strip. -/
def cleanL (l : List Char) : List Char :=
  pyStripL (collapseSpaces (collapseBlank l))

/-- The cleanup pipeline on strings. -/
def cleanString (s : String) : String :=
  ⟨cleanL s.data⟩

/-- `' '.join(content_parts)` followed by the cleanup pipeline. -/
def assembleParts (parts : List String) : String :=
  cleanString (String.intercalate " " parts)

/-- `ForumClient._parse_message_content`: walk the message element and
assemble the collected fragments. -/
def parseMessageContent (base : String) (root : MNode) : String :=
  assembleParts (parseElement base root ⟨[], false⟩).parts

/-- The possible outcomes of `ForumClient.load_post_details` as seen by
`ForumPost._load_details`: a details dictionary, `None` (the client
catches its own errors and returns `None`), or a raised exception. -/
inductive LoaderOutcome where
  | ok (content : String) (publishTime : Nat) (images tags : List String)
  | failed
  | raised
deriving DecidableEq

/-- The lazy-loading state of a `ForumPost`: the four derived fields
(`None` until populated) and the `_is_loaded` flag.  Time is modelled
as a natural number. -/
structure PostState where
  content? : Option String
  publishTime? : Option Nat
  images? : Option (List String)
  tags? : Option (List String)
  isLoaded : Bool
deriving DecidableEq, Repr

/-- A freshly constructed post: nothing loaded. -/
def freshPost : PostState :=
  ⟨none, none, none, none, false⟩

/-- `ForumPost._load_details` (with the client present), as a function
of the loader's outcome and the current time: already-loaded posts
return unchanged; a details dictionary populates all four fields and
sets the flag; `None` changes nothing; a raised exception installs the
sentinel text, the current time, empty lists, and sets the flag. -/
def loadDetails (now : Nat) (outcome : LoaderOutcome) (st : PostState) : PostState :=
  if st.isLoaded then st
  else
    match outcome with
    | .ok c t i g =>
      { content? := some c, publishTime? := some t, images? := some i,
        tags? := some g, isLoaded := true }
    | .failed => st
    | .raised =>
      { content? := some "内容加载失败", publishTime? := some now,
        images? := some [], tags? := some [], isLoaded := true }

/-- The `content` property: when the cached content is absent, run
`_load_details` (which invokes the loader exactly when the post is not
marked loaded) and return the new cached value or `""`.  The returned
boolean records whether the loader was invoked by this read. -/
def contentRead (now : Nat) (outcome : LoaderOutcome) (st : PostState) :
    String × PostState × Bool :=
  if st.content?.isNone then
    let st2 := loadDetails now outcome st
    (st2.content?.getD "", st2, !st.isLoaded)
  else (st.content?.getD "", st, false)

/-- The fragments contributed by one tail-text handling step. -/
def stripFrag (s : String) : List String :=
  if pyStrip s = "" then [] else [pyStrip s]

theorem emitTrimmed_eq (s : String) (st : WalkState) :
    emitTrimmed s st = ⟨st.parts ++ stripFrag s, st.flag⟩ := by
  cases st
  simp only [emitTrimmed, stripFrag, emit]
  split <;> simp_all

/-- C1 (counterexample): an image-like node with full-resolution
attribute `/img/pic.png` under base URL `https://forum.test`.  Contrary
to the claim, the walk emits the text fragment `[图片: …]` for it, and
the image list — which is collected by the separate pass
`_extract_images_from_content` from the `src` attribute, not from the
full-resolution attribute — stays empty. -/
theorem claim1_counterexample :
    (parseElement "https://forum.test"
        (.mk "td" [] "" "" [.mk "img" [("file", "/img/pic.png")] "" "" []])
        ⟨[], false⟩).parts = ["[图片: https://forum.test/img/pic.png]"]
    ∧ (["[图片: https://forum.test/img/pic.png]"] : List String) ≠ []
    ∧ extractImages "https://forum.test"
        (.mk "td" [] "" "" [.mk "img" [("file", "/img/pic.png")] "" "" []]) = [] := by
  decide

/-- C1 (amended): for every image-like node whose full-resolution
attribute `file` is present and is not a data URI, the walk resolves
that value against the base URL (unchanged if it starts with `http`,
`base ++ ref` if it starts with `/`, `base ++ "/" ++ ref` otherwise)
and emits the text fragment `[图片: <absolute url>]`; it does not touch
the image list, which a separate pass collects from `src` attributes. -/
theorem claim1_amended (base : String) (st : WalkState) (child : MNode)
    (htag : pyLower child.tag = "img")
    (hsrc : getAttr child "file" ≠ "")
    (hdata : pyStartsWith (getAttr child "file") "data:" = false) :
    parseChild base st child =
      ⟨st.parts ++ ["[图片: " ++ resolveUrl base (getAttr child "file") ++ "]"]
         ++ stripFrag child.tail, st.flag⟩ := by
  simp only [parseChild, htag, hsrc, hdata, emitTrimmed_eq]
  simp [emit, hsrc, List.append_assoc]

/-- C1 (witness): the amended statement at the concrete spec example. -/
theorem claim1_witness :
    parseChild "https://forum.test" ⟨[], false⟩
        (.mk "img" [("file", "/img/pic.png")] "" " t " []) =
      ⟨["[图片: https://forum.test/img/pic.png]", "t"], false⟩ :=
  (claim1_amended "https://forum.test" ⟨[], false⟩
      (.mk "img" [("file", "/img/pic.png")] "" " t " [])
      (by decide) (by decide) (by decide)).trans (by decide)

/-- C2 (counterexample): the claim's concrete embedded frame with
`src = "https://store.example.com/widget/123/?x=1"` does not contain
the storefront token `steam`, so the code's iframe branch falls through
to the generic `[嵌入内容]` marker and leaves the suppression flag
unarmed — not the claimed `[Steam小部件: …]` fragment with the flag set. -/
theorem claim2_counterexample :
    parseChild "https://forum.test" ⟨[], false⟩
        (.mk "iframe" [("src", "https://store.example.com/widget/123/?x=1")] "" "" []) =
      ⟨["[嵌入内容]"], false⟩
    ∧ ("[嵌入内容]" : String) ≠ "[Steam小部件: https://store.example.com/app/123/]" := by
  decide

/-- C2 (amended): for every embedded-frame node whose lower-cased `src`
contains `steam`, the walk emits exactly one fragment
`[Steam小部件: <src with every occurrence of widget replaced by app and
everything from the first question mark dropped>]` and sets the
suppression flag to true. -/
theorem claim2_amended (base : String) (st : WalkState) (child : MNode)
    (htag : pyLower child.tag = "iframe")
    (hsteam : strContains (pyLower (getAttr child "src")) "steam" = true) :
    parseChild base st child =
      ⟨st.parts ++
        ["[Steam小部件: " ++
          beforeQm (if strContains (getAttr child "src") "widget" = true
                    then (⟨replaceWidgetApp (getAttr child "src").data⟩ : String)
                    else getAttr child "src") ++ "]"]
        ++ stripFrag child.tail, true⟩ := by
  simp only [parseChild, htag, hsteam, emitTrimmed_eq]
  simp [emit, List.append_assoc]

/-- C2 (witness): the amended statement at a `src` that carries the
storefront token: `https://store.steampowered.com/widget/123/?x=1`
yields `[Steam小部件: https://store.steampowered.com/app/123/]` and
arms the flag. -/
theorem claim2_witness :
    parseChild "https://forum.test" ⟨[], false⟩
        (.mk "iframe" [("src", "https://store.steampowered.com/widget/123/?x=1")] "" "" []) =
      ⟨["[Steam小部件: https://store.steampowered.com/app/123/]"], true⟩ :=
  (claim2_amended "https://forum.test" ⟨[], false⟩
      (.mk "iframe" [("src", "https://store.steampowered.com/widget/123/?x=1")] "" "" [])
      (by decide) (by decide)).trans (by decide)

/-- C5 (counterexample): a link with `href = "foo.html"` (relative,
not slash-initial) and text `click` under base `https://forum.test`:
the code emits the href unchanged — the claimed `base + "/" + href`
resolution step does not exist in the link branch. -/
theorem claim5_counterexample :
    parseChild "https://forum.test" ⟨[], false⟩
        (.mk "a" [("href", "foo.html")] "click" "" []) =
      ⟨["[链接: click - foo.html]"], false⟩
    ∧ ("[链接: click - foo.html]" : String) ≠
        "[链接: click - https://forum.test/foo.html]" := by
  decide

/-- C5 (amended): for every link node — not external-platform, not an
in-page anchor, not a script pseudo-protocol — with both `href` and
inner text present, the emitted fragment is
`[链接: <text> - <href'>]` where `href'` is `base ++ href` when `href`
starts with `/` and the unchanged `href` otherwise (no `base + "/"`
case exists). -/
theorem claim5_amended (base : String) (st : WalkState) (child : MNode)
    (htag : pyLower child.tag = "a")
    (hns : strContains (pyLower (getAttr child "href")) "steam" = false)
    (hnh : pyStartsWith (getAttr child "href") "#" = false)
    (hhref : getAttr child "href" ≠ "")
    (htext : child.text ≠ "")
    (hjs : strContains (getAttr child "href") "javascript:" = false) :
    parseChild base st child =
      ⟨st.parts ++
        ["[链接: " ++ child.text ++ " - " ++
          (if pyStartsWith (getAttr child "href") "/" = true
           then base ++ getAttr child "href" else getAttr child "href") ++ "]"]
        ++ stripFrag child.tail, st.flag⟩ := by
  simp only [parseChild, htag, hns, hnh, hhref, htext, hjs, emitTrimmed_eq]
  simp [emit, hhref, htext, List.append_assoc]

/-- C5 (witness): the amended statement at a slash-relative href. -/
theorem claim5_witness :
    parseChild "https://forum.test" ⟨[], false⟩
        (.mk "a" [("href", "/thread-9")] "click" "" []) =
      ⟨["[链接: click - https://forum.test/thread-9]"], false⟩ :=
  (claim5_amended "https://forum.test" ⟨[], false⟩
      (.mk "a" [("href", "/thread-9")] "click" "" [])
      (by decide) (by decide) (by decide) (by decide) (by decide) (by decide)).trans
    (by decide)

/-- C3: while the suppression flag is armed, a span that matches the
caption style heuristic is dropped (contributing nothing, tail
included) with the flag cleared exactly when it also mentions the
storefront platform; when it matches the style heuristic without the
platform mention — or does not match the style heuristic — the
suppression check does not fire: the span is processed by the ordinary
span rule with the flag still armed on entry (in particular a
denylisted such span leaves the state, flag included, unchanged, so the
flag stays armed for a later sibling). -/
theorem claim3_suppression (base : String) (st : WalkState) (child : MNode)
    (htag : pyLower child.tag = "span") (hflag : st.flag = true) :
    (styleHeur (getAttr child "style") = true → steamMention child = true →
      parseChild base st child = ⟨st.parts, false⟩)
    ∧ (styleHeur (getAttr child "style") = true → steamMention child = false →
      parseChild base st child =
        (if denylisted (getAttr child "class") = true then st
         else emitTrimmed child.tail (parseElement base child st)))
    ∧ (styleHeur (getAttr child "style") = false →
      parseChild base st child =
        (if denylisted (getAttr child "class") = true then st
         else emitTrimmed child.tail (parseElement base child st))) := by
  refine ⟨fun hstyle hm => ?_, fun hstyle hm => ?_, fun hstyle => ?_⟩
  · cases st
    simp_all [parseChild]
  · simp only [parseChild, htag, hflag, hstyle, hm]
    simp
  · simp only [parseChild, htag, hflag, hstyle]
    simp

/-- C3 (witness): with the flag armed, a caption-styled span mentioning
the platform is dropped and clears the flag, while a caption-styled,
denylist-free span without the mention is processed with the flag kept
armed. -/
theorem claim3_witness :
    parseChild "https://b" ⟨["w"], true⟩
        (.mk "span" [("style", "font-size: 10px")] "Steam thing" " t " []) =
      ⟨["w"], false⟩
    ∧ parseChild "https://b" ⟨["w"], true⟩
        (.mk "span" [("style", "font-size: 10px")] "other" " t " []) =
      ⟨["w", "other", "t"], true⟩ :=
  ⟨(claim3_suppression "https://b" ⟨["w"], true⟩
      (.mk "span" [("style", "font-size: 10px")] "Steam thing" " t " [])
      (by decide) (by decide)).1 (by decide) (by decide),
   ((claim3_suppression "https://b" ⟨["w"], true⟩
      (.mk "span" [("style", "font-size: 10px")] "other" " t " [])
      (by decide) (by decide)).2.1 (by decide) (by decide)).trans (by decide)⟩

/-- C4 (counterexample): a script child with non-blank tail text
` hello `.  Contrary to the claim, the `continue` of the script branch
skips the tail handling, so nothing at all is emitted. -/
theorem claim4_counterexample :
    (parseElement "https://b" (.mk "td" [] "" "" [.mk "script" [] "bad" " hello " []])
        ⟨[], false⟩).parts = []
    ∧ pyStrip " hello " = "hello"
    ∧ ("hello" : String) ≠ "" := by
  decide

/-- C4 (amended): leading text is emitted first and each child's
trimmed tail is emitted after the child's rule, except that the
branches that skip the child via `continue` — script/style/noscript
nodes, denylisted containers, suppressed spans, javascript links —
drop the tail as well: a script-like or denylisted-div child leaves
the state unchanged (no tail), while for instance a line-break child
has its tail emitted after its own fragment. -/
theorem claim4_amended (base : String) (st : WalkState) (child : MNode) :
    (pyLower child.tag = "script" ∨ pyLower child.tag = "style"
        ∨ pyLower child.tag = "noscript" →
      parseChild base st child = st)
    ∧ (pyLower child.tag = "div" → denylisted (getAttr child "class") = true →
      parseChild base st child = st)
    ∧ (pyLower child.tag = "br" →
      parseChild base st child = ⟨st.parts ++ ["\n"] ++ stripFrag child.tail, st.flag⟩) := by
  refine ⟨fun h => ?_, fun hdiv hden => ?_, fun hbr => ?_⟩
  · rcases h with h | h | h
    · simp [parseChild, h, show strContains "script" "script" = true from by decide]
    · simp [parseChild, h, show strContains "style" "script" = false from by decide,
        show strContains "style" "style" = true from by decide]
    · simp [parseChild, h, show strContains "noscript" "script" = true from by decide]
  · simp [parseChild, hdiv, hden]
  · simp [parseChild, hbr, emitTrimmed_eq, emit, List.append_assoc]

/-- C4 (witness): the amended statement at concrete children with
non-blank tails: the script child contributes nothing, the br child
contributes its newline fragment followed by its trimmed tail. -/
theorem claim4_witness :
    parseChild "https://b" ⟨[], false⟩ (.mk "script" [] "x" " t " []) = ⟨[], false⟩
    ∧ parseChild "https://b" ⟨[], false⟩ (.mk "br" [] "" " t " []) = ⟨["\n", "t"], false⟩ :=
  ⟨(claim4_amended "https://b" ⟨[], false⟩ (.mk "script" [] "x" " t " [])).1
      (Or.inl (by decide)),
   ((claim4_amended "https://b" ⟨[], false⟩ (.mk "br" [] "" " t " [])).2.2
      (by decide)).trans (by decide)⟩

mutual

/-- Specification view of the image collection: the `src` attributes of
the `img` elements of one element's subtree, in document order,
unfiltered and unresolved. -/
def imgSrcsNode : MNode → List String
  | c@(.mk _ _ _ _ ch) =>
    (if c.tag = "img" then [getAttr c "src"] else []) ++ imgSrcsList ch

/-- Specification view over a forest. -/
def imgSrcsList : List MNode → List String
  | [] => []
  | c :: rest => imgSrcsNode c ++ imgSrcsList rest

end

theorem imgDescList_spec (base : String) :
    ∀ (k : Nat) (cs : List MNode), sizeOf cs ≤ k →
      imgDescList base cs =
        ((imgSrcsList cs).filter
            (fun s => s ≠ "" && !pyStartsWith s "data:")).map (resolveUrl base) := by
  intro k
  induction k with
  | zero =>
    intro cs h
    cases cs with
    | nil => simp [imgDescList, imgSrcsList]
    | cons c rest =>
      exfalso
      have : 1 ≤ sizeOf (c :: rest) := by
        cases c
        simp
        omega
      omega
  | succ k ih =>
    intro cs h
    match cs with
    | [] => simp [imgDescList, imgSrcsList]
    | (.mk tg a tx tl ch) :: rest =>
      have hsz : sizeOf ((MNode.mk tg a tx tl ch) :: rest) =
          1 + (1 + sizeOf tg + sizeOf a + sizeOf tx + sizeOf tl + sizeOf ch)
            + sizeOf rest := by
        simp
      have h1 : sizeOf ch ≤ k := by omega
      have h2 : sizeOf rest ≤ k := by omega
      rw [imgDescList, imgNode, imgSrcsList, imgSrcsNode, ih ch h1, ih rest h2]
      rw [List.filter_append, List.map_append, List.filter_append, List.map_append]
      by_cases htag : MNode.tag (.mk tg a tx tl ch) = "img"
      · simp only [htag, if_true, List.append_assoc]
        congr 1
        cases hc : (decide (getAttr (MNode.mk tg a tx tl ch) "src" ≠ "")
            && !pyStartsWith (getAttr (MNode.mk tg a tx tl ch) "src") "data:") <;>
          (rw [decide_not] at hc; simp [List.filter, hc])
      · simp [htag]

/-- C7 (counterexample): two image nodes with the same `src` produce
the same URL twice — the collected image list is not deduplicated. -/
theorem claim7_counterexample :
    extractImages "https://f"
        (.mk "td" [] "" "" [.mk "img" [("src", "/a.png")] "" "" [],
          .mk "img" [("src", "/a.png")] "" "" []]) =
      ["https://f/a.png", "https://f/a.png"]
    ∧ ¬ (["https://f/a.png", "https://f/a.png"] : List String).Nodup := by
  refine ⟨by decide, by simp⟩

/-- C7 (amended): the image list is exactly the document-order list of
`src` attributes of the image-like descendants that are present and not
data URIs, each resolved against the base URL — one entry per such
node, duplicates included. -/
theorem claim7_amended (base : String) (root : MNode) :
    extractImages base root =
      ((imgSrcsList root.children).filter
          (fun s => s ≠ "" && !pyStartsWith s "data:")).map (resolveUrl base) :=
  imgDescList_spec base (sizeOf root.children) root.children (Nat.le_refl _)

/-- C8: the failing input is `load_post_details` returning `None` — its
internal `except` swallows every fetch/parse error and returns `None`.
On that path `_load_details` leaves the post untouched: no sentinel
text, no timestamp, no empty lists, `_is_loaded` stays false, and a
second property read invokes the loader again, contradicting the
claimed load-once-with-permanent-fallback behaviour.  (Only an
exception raised into `_load_details` — the path the claim describes —
installs the sentinel and marks the post loaded.) -/
theorem claim8_failed_path :
    loadDetails 0 .failed freshPost = freshPost
    ∧ freshPost.isLoaded = false
    ∧ (contentRead 0 .failed freshPost).2.2 = true
    ∧ (contentRead 0 .failed (contentRead 0 .failed freshPost).2.1).2.2 = true
    ∧ loadDetails 7 .raised freshPost =
        ⟨some "内容加载失败", some 7, some [], some [], true⟩ := by
  decide

/-- C9: for an embedded-frame node of the countdown widget (lower-cased
`src` contains `countdown` and not `steam`): when the parsed `t` query
value is numeric the walk emits `[倒计时: <formatted local time>]`
(time zone modelled as UTC) followed by the trimmed tail; when it is
not numeric the node yields no fragment of its own while the tail is
still handled and the sibling loop continues either way. -/
theorem claim9_countdown (base : String) (st : WalkState) (child : MNode)
    (htag : pyLower child.tag = "iframe")
    (hns : strContains (pyLower (getAttr child "src")) "steam" = false)
    (hcd : strContains (pyLower (getAttr child "src")) "countdown" = true) :
    (pyIsDigit (tParam (getAttr child "src")) = true →
      parseChild base st child =
        ⟨st.parts ++
          ["[倒计时: " ++
            formatLocalTime (digitsToNat (tParam (getAttr child "src")).data) ++ "]"]
          ++ stripFrag child.tail, st.flag⟩)
    ∧ (pyIsDigit (tParam (getAttr child "src")) = false →
      parseChild base st child = ⟨st.parts ++ stripFrag child.tail, st.flag⟩)
    ∧ ∀ rest, parseChildren base (child :: rest) st =
        parseChildren base rest (parseChild base st child) := by
  refine ⟨fun hd => ?_, fun hd => ?_, fun rest => parseChildren_cons base child rest st⟩
  · simp only [parseChild, htag, hns, hcd, hd, emitTrimmed_eq]
    simp [emit, List.append_assoc]
  · simp only [parseChild, htag, hns, hcd, hd, emitTrimmed_eq]
    simp [emit]

/-- C9 (witness): the numeric spec example `t=1700000000` yields the
formatted time fragment, and a non-numeric `t` yields nothing while the
walk still emits the node's tail. -/
theorem claim9_witness :
    parseChild "https://b" ⟨[], false⟩
        (.mk "iframe" [("src", "https://countdown.example/?t=1700000000&x=1")] "" "" []) =
      ⟨["[倒计时: 2023-11-14 22:13:20]"], false⟩
    ∧ parseChild "https://b" ⟨[], false⟩
        (.mk "iframe" [("src", "https://countdown.example/?t=soon")] "" " t " []) =
      ⟨["t"], false⟩ :=
  ⟨((claim9_countdown "https://b" ⟨[], false⟩
      (.mk "iframe" [("src", "https://countdown.example/?t=1700000000&x=1")] "" "" [])
      (by decide) (by decide) (by decide)).1 (by decide)).trans (by decide),
   ((claim9_countdown "https://b" ⟨[], false⟩
      (.mk "iframe" [("src", "https://countdown.example/?t=soon")] "" " t " [])
      (by decide) (by decide) (by decide)).2.1 (by decide)).trans (by decide)⟩

/-- C10: denylist matching is substring-based on the raw class
attribute: every span or div whose class contains `swi-block`,
`steam-info-wrapper`, `tip`, `steam-info-loading` or
`original_text_style1` as a substring contributes nothing (no
recursion, no text, no tail); a div is skipped with the whole state
unchanged, and so is a span when the suppression check does not fire
(e.g. flag unarmed) — so a span with the unrelated class `tooltip` is
also skipped, because `tooltip` contains `tip`. -/
theorem claim10_denylist (base : String) (st : WalkState) (child : MNode)
    (htag : pyLower child.tag = "span" ∨ pyLower child.tag = "div")
    (hden : denylisted (getAttr child "class") = true) :
    (parseChild base st child).parts = st.parts
    ∧ (pyLower child.tag = "div" → parseChild base st child = st)
    ∧ (pyLower child.tag = "span" → st.flag = false → parseChild base st child = st) := by
  refine ⟨?_, fun hdiv => by simp [parseChild, hdiv, hden],
    fun hspan hflag => by simp [parseChild, hspan, hflag, hden]⟩
  rcases htag with h | h
  · simp only [parseChild, h, hden]
    by_cases hf : st.flag = true
    · simp only [hf]
      by_cases hs : styleHeur (getAttr child "style") = true
      · simp only [hs]
        by_cases hm : steamMention child = true
        · simp [hm]
        · simp_all
      · simp_all
    · simp_all
  · simp [parseChild, h, hden]

/-- C10 (witness): a span with class `tooltip` and non-trivial content
is skipped entirely. -/
theorem claim10_witness :
    parseChild "https://b" ⟨["k"], false⟩
        (.mk "span" [("class", "tooltip")] "content" " tail " [.mk "b" [] "x" "" []]) =
      ⟨["k"], false⟩ :=
  (claim10_denylist "https://b" ⟨["k"], false⟩
      (.mk "span" [("class", "tooltip")] "content" " tail " [.mk "b" [] "x" "" []])
      (Or.inl (by decide)) (by decide)).2.2 (by decide) (by decide)

/-! ### Idempotence of the cleanup pipeline (claim C6)

`BadBlank s` says the blank-line pattern can still change `s`: two
newlines separated by a non-empty all-whitespace gap.  `BadSp s` says
the space pattern can still change `s`: two adjacent spaces.  `NlPre l`
says a newline is reachable in `l` through a non-empty run of leading
whitespace. -/

/-- Every character of `l` is whitespace. -/
def AllWs (l : List Char) : Prop := ∀ c ∈ l, isPySpace c = true

/-- Somewhere in `s`, two newlines are separated by a non-empty
all-whitespace gap — the configurations on which `collapseBlank` is not
the identity. -/
def BadBlank (s : List Char) : Prop :=
  ∃ W t u, W ≠ [] ∧ AllWs W ∧ s = t ++ '\n' :: (W ++ '\n' :: u)

/-- `l` starts with a non-empty whitespace run followed by a newline. -/
def NlPre (l : List Char) : Prop :=
  ∃ W u, W ≠ [] ∧ AllWs W ∧ l = W ++ '\n' :: u

/-- Somewhere in `s`, two spaces are adjacent. -/
def BadSp (s : List Char) : Prop := ∃ t u, s = t ++ ' ' :: ' ' :: u

theorem allWs_takeWhile (t : List Char) : AllWs (t.takeWhile isPySpace) :=
  fun _ hc => List.mem_takeWhile_imp hc

theorem badBlank_nil : ¬ BadBlank [] := by
  rintro ⟨W, t, u, hW, _, h⟩
  simp at h

theorem badBlank_cons {s : List Char} (c : Char) (h : BadBlank s) : BadBlank (c :: s) := by
  obtain ⟨W, t, u, hW, hws, rfl⟩ := h
  exact ⟨W, c :: t, u, hW, hws, rfl⟩

theorem badBlank_of_decomp {l a m b : List Char} (h : BadBlank m)
    (hd : l = a ++ m ++ b) : BadBlank l := by
  obtain ⟨W, t, u, hW, hws, rfl⟩ := h
  exact ⟨W, a ++ t, u ++ b, hW, hws, by subst hd; simp⟩

theorem badBlank_cons_elim {c : Char} {s : List Char} (h : BadBlank (c :: s)) :
    (c = '\n' ∧ ∃ W u, W ≠ [] ∧ AllWs W ∧ s = W ++ '\n' :: u) ∨ BadBlank s := by
  obtain ⟨W, t, u, hW, hws, heq⟩ := h
  cases t with
  | nil =>
    simp only [List.nil_append, List.cons.injEq] at heq
    exact Or.inl ⟨heq.1, W, u, hW, hws, heq.2⟩
  | cons a t' =>
    simp only [List.cons_append, List.cons.injEq] at heq
    exact Or.inr ⟨W, t', u, hW, hws, heq.2⟩

theorem nlPre_nil : ¬ NlPre [] := by
  rintro ⟨W, u, hW, _, h⟩
  cases W with
  | nil => exact hW rfl
  | cons a w' => simp at h

theorem badSp_nil : ¬ BadSp [] := by
  rintro ⟨t, u, h⟩
  simp at h

theorem badSp_cons {s : List Char} (c : Char) (h : BadSp s) : BadSp (c :: s) := by
  obtain ⟨t, u, rfl⟩ := h
  exact ⟨c :: t, u, rfl⟩

theorem badSp_of_decomp {l a m b : List Char} (h : BadSp m) (hd : l = a ++ m ++ b) :
    BadSp l := by
  obtain ⟨t, u, rfl⟩ := h
  exact ⟨a ++ t, u ++ b, by subst hd; simp⟩

theorem badSp_cons_elim {c : Char} {s : List Char} (h : BadSp (c :: s)) :
    (c = ' ' ∧ ∃ u, s = ' ' :: u) ∨ BadSp s := by
  obtain ⟨t, u, heq⟩ := h
  cases t with
  | nil =>
    simp only [List.nil_append, List.cons.injEq] at heq
    exact Or.inl ⟨heq.1, u, heq.2⟩
  | cons a t' =>
    simp only [List.cons_append, List.cons.injEq] at heq
    exact Or.inr ⟨t', u, heq.2⟩

theorem takeWhile_allWs_append {w r : List Char} (h : AllWs w) :
    (w ++ r).takeWhile isPySpace = w ++ r.takeWhile isPySpace := by
  induction w with
  | nil => simp
  | cons a w' ih =>
    rw [List.cons_append, List.takeWhile_cons_of_pos (h a (by simp))]
    rw [ih (fun c hc => h c (by simp [hc]))]
    simp

theorem drop_len_takeWhile (p : Char → Bool) (t : List Char) :
    t.drop (t.takeWhile p).length = t.dropWhile p := by
  induction t with
  | nil => simp
  | cons a t' ih =>
    by_cases hp : p a = true
    · rw [List.takeWhile_cons_of_pos hp, List.dropWhile_cons_of_pos hp,
        List.length_cons, List.drop_succ_cons, ih]
    · rw [List.takeWhile_cons_of_neg hp, List.dropWhile_cons_of_neg hp]
      simp

theorem splitFirstNl {l : List Char} (h : '\n' ∈ l) :
    l = l.takeWhile (fun c => c ≠ '\n') ++ '\n'
          :: (l.dropWhile (fun c => c ≠ '\n')).tail
    ∧ '\n' ∉ l.takeWhile (fun c => c ≠ '\n') := by
  have hmem : ∀ x ∈ l.takeWhile (fun c => (c ≠ '\n' : Bool)), x ≠ '\n' := by
    intro x hx
    simpa using List.mem_takeWhile_imp hx
  have hne : l.dropWhile (fun c => (c ≠ '\n' : Bool)) ≠ [] := by
    intro hcon
    have h2 := List.takeWhile_append_dropWhile (fun c => (c ≠ '\n' : Bool)) l
    rw [hcon, List.append_nil] at h2
    rw [← h2] at h
    exact (hmem '\n' h) rfl
  have hhead : ((l.dropWhile (fun c => (c ≠ '\n' : Bool))).head hne) = '\n' := by
    have h3 := List.head_dropWhile_not (fun c => (c ≠ '\n' : Bool)) l hne
    simpa using h3
  have hd : l.dropWhile (fun c => (c ≠ '\n' : Bool)) =
      '\n' :: (l.dropWhile (fun c => (c ≠ '\n' : Bool))).tail := by
    have hd0 := (List.head_cons_tail (l.dropWhile (fun c => (c ≠ '\n' : Bool))) hne).symm
    rw [hhead] at hd0
    exact hd0
  constructor
  · conv_lhs => rw [← List.takeWhile_append_dropWhile (fun c => (c ≠ '\n' : Bool)) l, hd]
  · intro hcon
    exact (hmem '\n' hcon) rfl

theorem splitLastNl {w : List Char} (h : '\n' ∈ w) :
    (∃ v, w = v ++ '\n' :: afterLastNl w) ∧ '\n' ∉ afterLastNl w := by
  have hrev : '\n' ∈ w.reverse := List.mem_reverse.mpr h
  obtain ⟨hsplit, hnot⟩ := splitFirstNl hrev
  constructor
  · refine ⟨((w.reverse.dropWhile (fun c => (c ≠ '\n' : Bool))).tail).reverse, ?_⟩
    conv_lhs => rw [← w.reverse_reverse]
    rw [afterLastNl]
    conv_lhs => rw [hsplit]
    simp
  · intro hcon
    rw [afterLastNl] at hcon
    exact hnot (List.mem_reverse.mp (by simpa using hcon))

theorem collapseBlank_nil : collapseBlank [] = [] := by
  simp [collapseBlank]

theorem collapseBlank_nl_mem {t : List Char} (h : '\n' ∈ t.takeWhile isPySpace) :
    collapseBlank ('\n' :: t) = '\n' :: '\n' ::
      collapseBlank (afterLastNl (t.takeWhile isPySpace)
        ++ t.drop (t.takeWhile isPySpace).length) := by
  rw [collapseBlank]
  simp [h]

theorem collapseBlank_nl_nomem {t : List Char} (h : '\n' ∉ t.takeWhile isPySpace) :
    collapseBlank ('\n' :: t) = '\n' :: collapseBlank t := by
  rw [collapseBlank]
  simp [h]

theorem collapseBlank_cons {c : Char} {t : List Char} (h : c ≠ '\n') :
    collapseBlank (c :: t) = c :: collapseBlank t := by
  rw [collapseBlank]
  simp [h]

theorem collapseBlank_head (c : Char) (t : List Char) :
    ∃ y, collapseBlank (c :: t) = c :: y := by
  by_cases hc : c = '\n'
  · subst hc
    by_cases hm : '\n' ∈ t.takeWhile isPySpace
    · exact ⟨_, collapseBlank_nl_mem hm⟩
    · exact ⟨_, collapseBlank_nl_nomem hm⟩
  · exact ⟨_, collapseBlank_cons hc⟩

theorem headNotNl {l : List Char} (h : '\n' ∉ l.takeWhile isPySpace) :
    ∀ u, collapseBlank l ≠ '\n' :: u := by
  intro u hcon
  cases l with
  | nil => rw [collapseBlank_nil] at hcon; cases hcon
  | cons c t =>
    obtain ⟨y, hy⟩ := collapseBlank_head c t
    rw [hy] at hcon
    have hcnl : c = '\n' := (List.cons.injEq _ _ _ _ ▸ hcon).1
    subst hcnl
    exact h (by rw [List.takeWhile_cons_of_pos (by simp [isPySpace])]; simp)

theorem collapseBlank_fix : ∀ {s : List Char}, ¬ BadBlank s → collapseBlank s = s := by
  intro s
  induction s using collapseBlank.induct with
  | case1 => intro _; exact collapseBlank_nil
  | case2 t w hmem ih =>
    replace hmem : '\n' ∈ t.takeWhile isPySpace := hmem
    replace ih : ¬ BadBlank (afterLastNl (t.takeWhile isPySpace)
        ++ t.drop (t.takeWhile isPySpace).length) →
        collapseBlank (afterLastNl (t.takeWhile isPySpace)
          ++ t.drop (t.takeWhile isPySpace).length) =
          afterLastNl (t.takeWhile isPySpace)
            ++ t.drop (t.takeWhile isPySpace).length := ih
    intro hgood
    obtain ⟨⟨v, hv⟩, hnv⟩ := splitLastNl hmem
    have hws : AllWs (t.takeWhile isPySpace) := allWs_takeWhile t
    have hvnil : v = [] := by
      by_contra hvne
      apply hgood
      refine ⟨v, [], afterLastNl (t.takeWhile isPySpace) ++ t.dropWhile isPySpace,
        hvne, ?_, ?_⟩
      · intro c hc
        exact hws c (by rw [hv]; simp [hc])
      · have ht : t = t.takeWhile isPySpace ++ t.dropWhile isPySpace :=
          (List.takeWhile_append_dropWhile isPySpace t).symm
        rw [List.nil_append]
        conv_lhs => rw [ht, hv]
        simp
    have hdrop : t.drop (t.takeWhile isPySpace).length = t.dropWhile isPySpace :=
      drop_len_takeWhile isPySpace t
    have hteq : t = '\n' :: (afterLastNl (t.takeWhile isPySpace)
        ++ t.dropWhile isPySpace) := by
      have ht : t = t.takeWhile isPySpace ++ t.dropWhile isPySpace :=
        (List.takeWhile_append_dropWhile isPySpace t).symm
      conv_lhs => rw [ht, hv, hvnil]
      simp
    rw [collapseBlank_nl_mem hmem, hdrop]
    have hgood2 : ¬ BadBlank (afterLastNl (t.takeWhile isPySpace)
        ++ t.dropWhile isPySpace) := by
      intro hb
      have hbb := badBlank_cons '\n' (badBlank_cons '\n' hb)
      rw [← hteq] at hbb
      exact hgood hbb
    rw [hdrop] at ih
    rw [ih hgood2]
    conv_rhs => rw [hteq]
  | case3 t w hnm ih =>
    replace hnm : '\n' ∉ t.takeWhile isPySpace := hnm
    intro hgood
    rw [collapseBlank_nl_nomem hnm, ih (fun hb => hgood (badBlank_cons _ hb))]
  | case4 c t hc ih =>
    intro hgood
    rw [collapseBlank_cons hc, ih (fun hb => hgood (badBlank_cons _ hb))]

theorem noNlPre_collapseBlank :
    ∀ {l : List Char}, '\n' ∉ l.takeWhile isPySpace → ¬ NlPre (collapseBlank l) := by
  intro l
  induction l using collapseBlank.induct with
  | case1 => rw [collapseBlank_nil]; exact fun _ => nlPre_nil
  | case2 t w hmem ih =>
    intro h
    exfalso
    exact h (by rw [List.takeWhile_cons_of_pos (by simp [isPySpace])]; simp)
  | case3 t w hnm ih =>
    intro h
    exfalso
    exact h (by rw [List.takeWhile_cons_of_pos (by simp [isPySpace])]; simp)
  | case4 c t hc ih =>
    intro h
    rw [collapseBlank_cons hc]
    rintro ⟨W, u, hW, hws, heq⟩
    cases W with
    | nil => exact absurd rfl hW
    | cons a W' =>
      simp only [List.cons_append, List.cons.injEq] at heq
      obtain ⟨rfl, heq2⟩ := heq
      have hwc : isPySpace c = true := hws c (by simp)
      have h' : '\n' ∉ t.takeWhile isPySpace := by
        intro hx
        exact h (by rw [List.takeWhile_cons_of_pos hwc]; simp [hx])
      cases W' with
      | nil => exact headNotNl h' u (by simpa using heq2)
      | cons b W'' =>
        exact (ih h') ⟨b :: W'', u, by simp,
          fun x hx => hws x (List.mem_cons_of_mem c hx), heq2⟩

theorem goodBlank_collapseBlank : ∀ (l : List Char), ¬ BadBlank (collapseBlank l) := by
  intro l
  induction l using collapseBlank.induct with
  | case1 => rw [collapseBlank_nil]; exact badBlank_nil
  | case2 t w hmem ih =>
    replace hmem : '\n' ∈ t.takeWhile isPySpace := hmem
    replace ih : ¬ BadBlank (collapseBlank (afterLastNl (t.takeWhile isPySpace)
        ++ t.drop (t.takeWhile isPySpace).length)) := ih
    obtain ⟨⟨v, hv⟩, hnv⟩ := splitLastNl hmem
    have hdrop : t.drop (t.takeWhile isPySpace).length = t.dropWhile isPySpace :=
      drop_len_takeWhile isPySpace t
    have hA : AllWs (afterLastNl (t.takeWhile isPySpace)) := by
      intro x hx
      exact allWs_takeWhile t x (by rw [hv]; simp [hx])
    have hargTW : (afterLastNl (t.takeWhile isPySpace)
        ++ t.dropWhile isPySpace).takeWhile isPySpace
        = afterLastNl (t.takeWhile isPySpace) := by
      rw [takeWhile_allWs_append hA]
      cases hdw : t.dropWhile isPySpace with
      | nil => simp
      | cons d r =>
        have hd : isPySpace d = false := by
          have h5 := List.head?_dropWhile_not isPySpace t
          rw [hdw] at h5
          simpa using h5
        rw [List.takeWhile_cons_of_neg (by simp [hd])]
        simp
    have hnoNl : '\n' ∉ (afterLastNl (t.takeWhile isPySpace)
        ++ t.dropWhile isPySpace).takeWhile isPySpace := by
      rw [hargTW]; exact hnv
    have hC := noNlPre_collapseBlank hnoNl
    have hHd := headNotNl hnoNl
    rw [collapseBlank_nl_mem hmem, hdrop]
    rw [hdrop] at ih
    intro hb
    rcases badBlank_cons_elim hb with ⟨_, W, u, hW, hws, heq⟩ | hb1
    · cases W with
      | nil => exact hW rfl
      | cons a W' =>
        simp only [List.cons_append, List.cons.injEq] at heq
        obtain ⟨-, heq2⟩ := heq
        cases W' with
        | nil => exact hHd u (by simpa using heq2)
        | cons b W'' =>
          exact hC ⟨b :: W'', u, by simp,
            fun x hx => hws x (List.mem_cons_of_mem a hx), heq2⟩
    · rcases badBlank_cons_elim hb1 with ⟨-, W, u, hW, hws, heq⟩ | hb2
      · cases W with
        | nil => exact hW rfl
        | cons b W' => exact hC ⟨b :: W', u, by simp, hws, heq⟩
      · exact ih hb2
  | case3 t w hnm ih =>
    replace hnm : '\n' ∉ t.takeWhile isPySpace := hnm
    have hC := noNlPre_collapseBlank hnm
    rw [collapseBlank_nl_nomem hnm]
    intro hb
    rcases badBlank_cons_elim hb with ⟨-, W, u, hW, hws, heq⟩ | hb1
    · cases W with
      | nil => exact hW rfl
      | cons b W' => exact hC ⟨b :: W', u, by simp, hws, heq⟩
    · exact ih hb1
  | case4 c t hc ih =>
    rw [collapseBlank_cons hc]
    intro hb
    rcases badBlank_cons_elim hb with ⟨hceq, -⟩ | hb1
    · exact hc hceq
    · exact ih hb1

theorem collapseSpaces_nil : collapseSpaces [] = [] := by
  simp [collapseSpaces]

theorem collapseSpaces_sp (t : List Char) :
    collapseSpaces (' ' :: t) =
      ' ' :: collapseSpaces (t.dropWhile (fun x => x = ' ')) := by
  rw [collapseSpaces]
  simp

theorem collapseSpaces_cons {c : Char} {t : List Char} (h : c ≠ ' ') :
    collapseSpaces (c :: t) = c :: collapseSpaces t := by
  rw [collapseSpaces]
  simp [h]

theorem collapseSpaces_head (c : Char) (t : List Char) :
    ∃ y, collapseSpaces (c :: t) = c :: y := by
  by_cases hc : c = ' '
  · subst hc
    exact ⟨_, collapseSpaces_sp t⟩
  · exact ⟨_, collapseSpaces_cons hc⟩

theorem collapseSpaces_fix : ∀ {s : List Char}, ¬ BadSp s → collapseSpaces s = s := by
  intro s
  induction s using collapseSpaces.induct with
  | case1 => intro _; exact collapseSpaces_nil
  | case2 t ih =>
    intro hgood
    have hts : t.dropWhile (fun x => x = ' ') = t := by
      cases t with
      | nil => simp
      | cons d r =>
        by_cases hd : d = ' '
        · exact absurd ⟨[], r, by simp [hd]⟩ hgood
        · rw [List.dropWhile_cons_of_neg (by simp [hd])]
    rw [collapseSpaces_sp]
    rw [hts] at ih ⊢
    rw [ih (fun hb => hgood (badSp_cons _ hb))]
  | case3 c t hc ih =>
    intro hgood
    rw [collapseSpaces_cons hc, ih (fun hb => hgood (badSp_cons _ hb))]

theorem goodSp_collapseSpaces : ∀ (l : List Char), ¬ BadSp (collapseSpaces l) := by
  intro l
  induction l using collapseSpaces.induct with
  | case1 => rw [collapseSpaces_nil]; exact badSp_nil
  | case2 t ih =>
    rw [collapseSpaces_sp]
    intro hb
    rcases badSp_cons_elim hb with ⟨-, u, hu⟩ | hb1
    · cases hdw : t.dropWhile (fun x => x = ' ') with
      | nil => rw [hdw, collapseSpaces_nil] at hu; cases hu
      | cons d r =>
        have hd : (decide (d = ' ')) = false := by
          have h5 := List.head?_dropWhile_not (fun x => decide (x = ' ')) t
          rw [hdw] at h5
          simpa using h5
        rw [hdw] at hu
        obtain ⟨y, hy⟩ := collapseSpaces_head d r
        rw [hy] at hu
        have : d = ' ' := (List.cons.injEq _ _ _ _ ▸ hu).1
        simp [this] at hd
    · exact ih hb1
  | case3 c t hc ih =>
    rw [collapseSpaces_cons hc]
    intro hb
    rcases badSp_cons_elim hb with ⟨hceq, -⟩ | hb1
    · exact hc hceq
    · exact ih hb1

theorem allWs_spaceRun (t : List Char) : AllWs (t.takeWhile (fun x => x = ' ')) := by
  intro x hx
  have := List.mem_takeWhile_imp hx
  simp at this
  simp [this, isPySpace]

theorem nlPre_pullback : ∀ {l : List Char}, NlPre (collapseSpaces l) → NlPre l := by
  intro l
  induction l using collapseSpaces.induct with
  | case1 => rw [collapseSpaces_nil]; exact fun h => absurd h nlPre_nil
  | case2 t ih =>
    rw [collapseSpaces_sp]
    rintro ⟨W, u, hW, hws, heq⟩
    cases W with
    | nil => exact absurd rfl hW
    | cons a W' =>
      simp only [List.cons_append, List.cons.injEq] at heq
      obtain ⟨rfl, heq2⟩ := heq
      have htd : t = t.takeWhile (fun x => x = ' ') ++ t.dropWhile (fun x => x = ' ') :=
        (List.takeWhile_append_dropWhile _ t).symm
      cases W' with
      | nil =>
        simp only [List.nil_append] at heq2
        cases hdw : t.dropWhile (fun x => x = ' ') with
        | nil => rw [hdw, collapseSpaces_nil] at heq2; cases heq2
        | cons d r =>
          obtain ⟨y, hy⟩ := collapseSpaces_head d r
          rw [hdw, hy] at heq2
          have hdn : d = '\n' := (List.cons.injEq _ _ _ _ ▸ heq2).1
          refine ⟨' ' :: t.takeWhile (fun x => x = ' '), r, by simp, ?_, ?_⟩
          · intro x hx
            rcases List.mem_cons.mp hx with rfl | hx2
            · simp [isPySpace]
            · exact allWs_spaceRun t x hx2
          · conv_lhs => rw [htd, hdw, hdn]
            simp
      | cons b W'' =>
        obtain ⟨W2, u2, hW2, hws2, hdeq⟩ :=
          ih ⟨b :: W'', u, by simp,
            fun x hx => hws x (List.mem_cons_of_mem ' ' hx), heq2⟩
        refine ⟨' ' :: (t.takeWhile (fun x => x = ' ') ++ W2), u2, by simp, ?_, ?_⟩
        · intro x hx
          rcases List.mem_cons.mp hx with rfl | hx2
          · simp [isPySpace]
          · rcases List.mem_append.mp hx2 with hx3 | hx3
            · exact allWs_spaceRun t x hx3
            · exact hws2 x hx3
        · conv_lhs => rw [htd, hdeq]
          simp
  | case3 c t hc ih =>
    rw [collapseSpaces_cons hc]
    rintro ⟨W, u, hW, hws, heq⟩
    cases W with
    | nil => exact absurd rfl hW
    | cons a W' =>
      simp only [List.cons_append, List.cons.injEq] at heq
      obtain ⟨rfl, heq2⟩ := heq
      cases W' with
      | nil =>
        simp only [List.nil_append] at heq2
        cases t with
        | nil => rw [collapseSpaces_nil] at heq2; cases heq2
        | cons d r =>
          obtain ⟨y, hy⟩ := collapseSpaces_head d r
          rw [hy] at heq2
          have hdn : d = '\n' := (List.cons.injEq _ _ _ _ ▸ heq2).1
          refine ⟨[c], r, by simp, ?_, by simp [hdn]⟩
          intro x hx
          simp only [List.mem_singleton] at hx
          subst hx
          exact hws x (by simp)
      | cons b W'' =>
        obtain ⟨W2, u2, hW2, hws2, hdeq⟩ :=
          ih ⟨b :: W'', u, by simp,
            fun x hx => hws x (List.mem_cons_of_mem c hx), heq2⟩
        refine ⟨c :: W2, u2, by simp, ?_, by simp [hdeq]⟩
        intro x hx
        rcases List.mem_cons.mp hx with rfl | hx2
        · exact hws x (by simp)
        · exact hws2 x hx2

theorem badBlank_pullback_spaces :
    ∀ {l : List Char}, BadBlank (collapseSpaces l) → BadBlank l := by
  intro l
  induction l using collapseSpaces.induct with
  | case1 => rw [collapseSpaces_nil]; exact fun hb => absurd hb badBlank_nil
  | case2 t ih =>
    rw [collapseSpaces_sp]
    intro hb
    rcases badBlank_cons_elim hb with ⟨hc, -⟩ | hb1
    · simp at hc
    · have hbd := ih hb1
      have htd : t = t.takeWhile (fun x => x = ' ') ++ t.dropWhile (fun x => x = ' ') :=
        (List.takeWhile_append_dropWhile _ t).symm
      have hbt : BadBlank t := badBlank_of_decomp hbd (b := []) (by
        rw [List.append_nil]
        exact htd)
      exact badBlank_cons ' ' hbt
  | case3 c t hc ih =>
    rw [collapseSpaces_cons hc]
    intro hb
    rcases badBlank_cons_elim hb with ⟨hcnl, W, u, hW, hws, heq⟩ | hb1
    · obtain ⟨W2, u2, hW2, hws2, hteq⟩ := nlPre_pullback ⟨W, u, hW, hws, heq⟩
      exact ⟨W2, [], u2, hW2, hws2, by rw [hcnl, hteq]; simp⟩
    · exact badBlank_cons c (ih hb1)

theorem strip_decomp (l : List Char) : ∃ a b, l = a ++ pyStripL l ++ b := by
  refine ⟨l.takeWhile isPySpace,
    ((l.dropWhile isPySpace).reverse.takeWhile isPySpace).reverse, ?_⟩
  have h1 : l.dropWhile isPySpace = pyStripL l
      ++ ((l.dropWhile isPySpace).reverse.takeWhile isPySpace).reverse := by
    conv_lhs => rw [← (l.dropWhile isPySpace).reverse_reverse,
      ← List.takeWhile_append_dropWhile isPySpace (l.dropWhile isPySpace).reverse]
    rw [List.reverse_append]
    rfl
  conv_lhs => rw [← List.takeWhile_append_dropWhile isPySpace l, h1]
  rw [List.append_assoc]

theorem dropWhile_idem_ws (x : List Char) :
    (x.dropWhile isPySpace).dropWhile isPySpace = x.dropWhile isPySpace := by
  cases hdw : x.dropWhile isPySpace with
  | nil => simp
  | cons d r2 =>
    have hd : isPySpace d = false := by
      have h5 := List.head?_dropWhile_not isPySpace x
      rw [hdw] at h5
      simpa using h5
    rw [List.dropWhile_cons_of_neg (by simp [hd])]

theorem strip_idem (l : List Char) : pyStripL (pyStripL l) = pyStripL l := by
  have step1 : (pyStripL l).dropWhile isPySpace = pyStripL l := by
    have hpre : ∃ tl2, l.dropWhile isPySpace = pyStripL l ++ tl2 := by
      refine ⟨((l.dropWhile isPySpace).reverse.takeWhile isPySpace).reverse, ?_⟩
      conv_lhs => rw [← (l.dropWhile isPySpace).reverse_reverse,
        ← List.takeWhile_append_dropWhile isPySpace (l.dropWhile isPySpace).reverse]
      rw [List.reverse_append]
      rfl
    obtain ⟨tl2, htl⟩ := hpre
    cases hm : pyStripL l with
    | nil => simp
    | cons c y =>
      have hr : l.dropWhile isPySpace = c :: (y ++ tl2) := by
        rw [htl, hm]
        simp
      have hc : isPySpace c = false := by
        have h5 := List.head?_dropWhile_not isPySpace l
        rw [hr] at h5
        simpa using h5
      rw [List.dropWhile_cons_of_neg (by simp [hc])]
  have step2 : (pyStripL l).reverse
      = (l.dropWhile isPySpace).reverse.dropWhile isPySpace := by
    unfold pyStripL
    exact List.reverse_reverse _
  show (((pyStripL l).dropWhile isPySpace).reverse.dropWhile isPySpace).reverse
      = pyStripL l
  rw [step1, step2, dropWhile_idem_ws, ← step2, List.reverse_reverse]

theorem cleanL_idem (l : List Char) : cleanL (cleanL l) = cleanL l := by
  have hGb_n : ¬ BadBlank (collapseSpaces (collapseBlank l)) :=
    fun hb => goodBlank_collapseBlank l (badBlank_pullback_spaces hb)
  have hSp_n : ¬ BadSp (collapseSpaces (collapseBlank l)) := goodSp_collapseSpaces _
  obtain ⟨a, b, hab⟩ := strip_decomp (collapseSpaces (collapseBlank l))
  have hGb_r : ¬ BadBlank (cleanL l) := fun hb => hGb_n (badBlank_of_decomp hb hab)
  have hSp_r : ¬ BadSp (cleanL l) := fun hb => hSp_n (badSp_of_decomp hb hab)
  show pyStripL (collapseSpaces (collapseBlank (cleanL l))) = cleanL l
  rw [collapseBlank_fix hGb_r, collapseSpaces_fix hSp_r]
  exact strip_idem (collapseSpaces (collapseBlank l))

/-- C6: the text assembler's normalization — collapse runs of blank
lines, collapse runs of spaces, trim the ends — is idempotent: applying
it to an already-assembled string returns that string unchanged, for
every input fragment sequence. -/
theorem claim6_idempotent (parts : List String) :
    cleanString (assembleParts parts) = assembleParts parts := by
  show String.mk (cleanL (cleanL (String.intercalate " " parts).data)) = _
  exact congrArg String.mk (cleanL_idem _)

end KeylolTg
